import Mathlib

/-!
# Verification of the `Component` delegation / pub-sub library

Shallow embedding of `src/component.js` (the `Element`, `Component` and
`Hub` objects) and proofs about its specified behaviour.

DOM nodes are modelled as natural-number identifiers.  A document tree is a
parent map together with a depth function witnessing acyclicity (every
parent step decreases depth by exactly one), which mirrors the finite,
acyclic parent chains of a real DOM tree.  The native `Node.contains`
operation is inclusive: `a.contains(a)` is `true` per the DOM standard.
-/

structure Dom where
  parent : Nat → Option Nat
  depth : Nat → Nat
  parent_depth : ∀ n p, parent n = some p → depth n = depth p + 1

/-- Fuel-bounded ancestor test: walk the parent chain of `b` looking for `a`. -/
def containsAux (d : Dom) : Nat → Nat → Nat → Bool
  | 0, _, _ => false
  | fuel + 1, a, b =>
    if a = b then true
    else
      match d.parent b with
      | none => false
      | some p => containsAux d fuel a p

/-- The DOM `a.contains(b)` test: `b` is an inclusive descendant of `a`.
Fuel `depth b + 1` always suffices because each parent step lowers depth. -/
def containsNode (d : Dom) (a b : Nat) : Bool :=
  containsAux d (d.depth b + 1) a b

theorem containsAux_mono (d : Dom) (a b : Nat) :
    ∀ f g, f ≤ g → containsAux d f a b = true → containsAux d g a b = true := by
  intro f g hfg h
  induction f generalizing g b with
  | zero => simp [containsAux] at h
  | succ f ih =>
    match g, hfg with
    | g + 1, hfg =>
      simp only [containsAux] at h ⊢
      by_cases hab : a = b
      · simp [hab]
      · simp only [hab, if_false] at h ⊢
        match hp : d.parent b with
        | none => simp [hp] at h
        | some p =>
          simp only [hp] at h ⊢
          exact ih p g (Nat.le_of_succ_le_succ hfg) h

theorem containsNode_refl (d : Dom) (a : Nat) : containsNode d a a = true := by
  simp [containsNode, containsAux]

theorem containsAux_depth_le (d : Dom) (a : Nat) :
    ∀ f b, containsAux d f a b = true → d.depth a ≤ d.depth b := by
  intro f
  induction f with
  | zero => intro b h; simp [containsAux] at h
  | succ f ih =>
    intro b h
    simp only [containsAux] at h
    by_cases hab : a = b
    · exact hab ▸ Nat.le_refl _
    · simp only [hab, if_false] at h
      match hp : d.parent b with
      | none => simp [hp] at h
      | some p =>
        simp only [hp] at h
        have := ih p h
        have hd := d.parent_depth b p hp
        omega

/-- Unfolding step of `containsNode` for a strict inclusive-descendant. -/
theorem containsNode_step (d : Dom) (a b : Nat) (hab : a ≠ b)
    (h : containsNode d a b = true) :
    ∃ p, d.parent b = some p ∧ containsNode d a p = true := by
  unfold containsNode at h
  simp only [containsAux, if_neg hab] at h
  match hp : d.parent b with
  | none => simp [hp] at h
  | some p =>
    simp only [hp] at h
    refine ⟨p, rfl, ?_⟩
    have hd := d.parent_depth b p hp
    exact containsAux_mono d a p _ _ (by omega) h

/-- Antisymmetry: mutual inclusive containment forces equality. -/
theorem containsNode_antisymm (d : Dom) (a b : Nat)
    (h₁ : containsNode d a b = true) (h₂ : containsNode d b a = true) : a = b := by
  by_contra hne
  obtain ⟨p, hp, hcp⟩ := containsNode_step d a b hne h₁
  have ha := containsAux_depth_le d a _ _ hcp
  have hb := containsAux_depth_le d b _ _ h₂
  have hd := d.parent_depth b p hp
  omega

/-! ## Bindings and `Component.findElement`

A `Binding` models one object created by `Component.define` from a binding
spec (the source's per-element mixin of the `Element` prototype): its name,
its cached node list `nodes`, the set of event types for which a handler is
declared (`handlers`, the keys of the source's handlers map) and whether a
`startup` hook is present. -/

structure Binding where
  name : String
  nodes : List Nat
  handlers : List String
  hasStartup : Bool
deriving DecidableEq, Repr

/-- `Component.findElement`: scan bindings in insertion order and, inside
each, the cached nodes in list order, for the first node equal to `node`;
return that binding and index, or nothing. -/
def findElement (els : List Binding) (node : Nat) : Option (Binding × Nat) :=
  match els with
  | [] => none
  | e :: rest =>
    match e.nodes.findIdx? (· == node) with
    | some i => some (e, i)
    | none => findElement rest node

/-! ## The delegation walk of `Component.handler`

The walk starts at the event's original target and climbs parents.  Per
visited node it computes `isOutsideRelated` exactly as the source does:
`!relatedTarget || (!currentTarget.contains(relatedTarget) && currentTarget
!== relatedTarget)`, invokes the matched binding's handler when a binding
is found, has a handler for the event type, and `isOutsideRelated` holds,
then stops at the container or climbs to the parent.  A handler's only
effect modelled here is whether it calls `ev.stopInnerPropagation()`, given
by the oracle `stopsAt` on the visited node; `stopInnerPropagation` also
calls the platform's native `stopPropagation`, recorded in
`nativeStopped`.  The walk is fuel-indexed; `finished = true` means the
loop exited via `stopPropagation = true`, and `crashed = true` marks the
null-parent dereference the source would hit if the target were not under
the container. -/

def isOutsideRelated (d : Dom) (current : Nat) (related : Option Nat) : Bool :=
  match related with
  | none => true
  | some r => !containsNode d current r && current != r

/-- Whether the source's guard `element && eventHandler && isOutsideRelated`
holds at `current`, i.e. the matched binding's handler is invoked there. -/
def stepInvoked (d : Dom) (els : List Binding) (etype : String)
    (related : Option Nat) (current : Nat) : Bool :=
  match findElement els current with
  | none => false
  | some (e, _) => e.handlers.contains etype && isOutsideRelated d current related

structure Step where
  node : Nat
  invoked : Bool
deriving DecidableEq, Repr

structure WalkResult where
  steps : List Step
  nativeStopped : Bool
  finished : Bool
  crashed : Bool
deriving DecidableEq, Repr

def handlerWalk (d : Dom) (els : List Binding) (container : Nat) (etype : String)
    (related : Option Nat) (stopsAt : Nat → Bool) : Nat → Nat → WalkResult
  | 0, _ => ⟨[], false, false, false⟩
  | fuel + 1, current =>
    let invoked := stepInvoked d els etype related current
    let stopByHandler := invoked && stopsAt current
    if current = container then
      ⟨[⟨current, invoked⟩], stopByHandler, true, false⟩
    else if stopByHandler then
      ⟨[⟨current, invoked⟩], true, true, false⟩
    else
      match d.parent current with
      | none => ⟨[⟨current, invoked⟩], false, false, true⟩
      | some p =>
        let rest := handlerWalk d els container etype related stopsAt fuel p
        ⟨⟨current, invoked⟩ :: rest.steps, rest.nativeStopped, rest.finished, rest.crashed⟩

/-- Every recorded step's `invoked` flag is exactly the source's guard
`element && eventHandler && isOutsideRelated` evaluated at that node. -/
theorem walk_invoked_eq (d : Dom) (els : List Binding) (container : Nat)
    (etype : String) (related : Option Nat) (stopsAt : Nat → Bool) :
    ∀ fuel target s, s ∈ (handlerWalk d els container etype related stopsAt fuel target).steps →
      s.invoked = stepInvoked d els etype related s.node := by
  intro fuel
  induction fuel with
  | zero => intro target s hs; simp [handlerWalk] at hs
  | succ fuel ih =>
    intro target s hs
    simp only [handlerWalk] at hs
    split at hs
    · simp only [List.mem_singleton] at hs
      subst hs; rfl
    · split at hs
      · simp only [List.mem_singleton] at hs
        subst hs; rfl
      · split at hs
        · simp only [List.mem_singleton] at hs
          subst hs; rfl
        · simp only [List.mem_cons] at hs
          rcases hs with hs | hs
          · subst hs; rfl
          · exact ih _ s hs

/-- A node below the container is never a proper ancestor of it. -/
theorem not_proper_ancestor (d : Dom) (container v : Nat)
    (hv : containsNode d container v = true) (hne : v ≠ container) :
    containsNode d v container = false := by
  by_contra h
  simp only [Bool.not_eq_false] at h
  exact hne (containsNode_antisymm d v container h hv)

/-- Concrete two-node document: node 1 is a child of node 0. -/
def domEx : Dom where
  parent := fun n => if n = 1 then some 0 else none
  depth := fun n => if n = 1 then 1 else 0
  parent_depth := by
    intro n p h
    by_cases hn : n = 1
    · subst hn
      simp at h
      subst h
      decide
    · simp [hn] at h

/-- One binding, matching node 1, with a `mouseover` handler. -/
def elsEx : List Binding := [⟨"item", [1], ["mouseover"], false⟩]

/-- Modelled from the spec (§4.3 step 2): an event is "spurious" when
`related` is present AND `current` contains `related` AND
`current ≠ related`. -/
def spuriousSpec (d : Dom) (current : Nat) (related : Option Nat) : Bool :=
  match related with
  | none => false
  | some r => containsNode d current r && current != r

/-- C1 (counterexample): in the two-node document, dispatch a `mouseover`
whose target and related target are both node 1.  Node 1 is visited, its
binding exists and has a `mouseover` handler, and the event is not spurious
under the spec's definition (`current = related` makes the third conjunct
false) — yet the handler is not invoked, because `Node.contains` is
inclusive, so the source's `!current.contains(related)` is false. -/
theorem C1_counterexample :
    findElement elsEx 1 = some (⟨"item", [1], ["mouseover"], false⟩, 0)
    ∧ (⟨"item", [1], ["mouseover"], false⟩ : Binding).handlers.contains "mouseover" = true
    ∧ spuriousSpec domEx 1 (some 1) = false
    ∧ (handlerWalk domEx elsEx 0 "mouseover" (some 1) (fun _ => false) 2 1).steps
        = [⟨1, false⟩, ⟨0, false⟩] := by
  refine ⟨by decide, by decide, by decide, by decide⟩

/-- C1 (amended): for every visited node of the delegation walk, the
matched binding's handler is invoked exactly when the binding exists, has a
handler for the event type, and the source's guard `isOutsideRelated`
holds, i.e. the related target is absent, or `current` does not contain the
related target and differs from it.  Because DOM `contains` is inclusive,
when `current = related` (related present) the event IS treated as spurious
and the handler is NOT invoked. -/
theorem C1_handler_invoked_iff
    (d : Dom) (els : List Binding) (container : Nat) (etype : String)
    (related : Option Nat) (stopsAt : Nat → Bool) (fuel target : Nat) (s : Step)
    (hs : s ∈ (handlerWalk d els container etype related stopsAt fuel target).steps) :
    (s.invoked = true ↔
      ∃ e i, findElement els s.node = some (e, i)
        ∧ e.handlers.contains etype = true
        ∧ isOutsideRelated d s.node related = true)
    ∧ (related = some s.node → s.invoked = false) := by
  have h := walk_invoked_eq d els container etype related stopsAt fuel target s hs
  constructor
  · rw [h]
    unfold stepInvoked
    rcases hfe : findElement els s.node with _ | ⟨e, i⟩
    · simp
    · simp only [Bool.and_eq_true]
      constructor
      · rintro ⟨h1, h2⟩
        exact ⟨e, i, rfl, h1, h2⟩
      · rintro ⟨e', i', hee, h1, h2⟩
        simp only [Option.some.injEq, Prod.mk.injEq] at hee
        obtain ⟨rfl, rfl⟩ := hee
        exact ⟨h1, h2⟩
  · intro hrel
    rw [h]
    unfold stepInvoked
    rcases hfe : findElement els s.node with _ | ⟨e, i⟩
    · rfl
    · simp [hrel, isOutsideRelated, containsNode_refl]

/-- Witness for `C1_handler_invoked_iff` at the concrete input of the
counterexample: the step at node 1 of the concrete walk. -/
theorem C1_handler_invoked_iff_witness :
    (⟨1, false⟩ : Step) ∈
        (handlerWalk domEx elsEx 0 "mouseover" (some 1) (fun _ => false) 2 1).steps
    ∧ (((⟨1, false⟩ : Step).invoked = true ↔
        ∃ e i, findElement elsEx (⟨1, false⟩ : Step).node = some (e, i)
          ∧ e.handlers.contains "mouseover" = true
          ∧ isOutsideRelated domEx (⟨1, false⟩ : Step).node (some 1) = true)
      ∧ (some 1 = some (⟨1, false⟩ : Step).node → (⟨1, false⟩ : Step).invoked = false)) :=
  ⟨by decide,
   C1_handler_invoked_iff domEx elsEx 0 "mouseover" (some 1) (fun _ => false) 2 1
     ⟨1, false⟩ (by decide)⟩

/-- C4: if the handler invoked at some step of the walk calls
`stopInnerPropagation`, then that step is the last one — no binding matched
at a later (ancestor) step has its handler invoked — and the platform's
native stop-propagation has been called. -/
theorem C4_innerStop_halts_walk
    (d : Dom) (els : List Binding) (container : Nat) (etype : String)
    (related : Option Nat) (stopsAt : Nat → Bool) :
    ∀ fuel target l₁ s l₂,
      (handlerWalk d els container etype related stopsAt fuel target).steps = l₁ ++ s :: l₂ →
      s.invoked = true → stopsAt s.node = true →
      l₂ = [] ∧ (handlerWalk d els container etype related stopsAt fuel target).nativeStopped = true := by
  intro fuel
  induction fuel with
  | zero =>
    intro target l₁ s l₂ hsteps _ _
    simp only [handlerWalk] at hsteps
    exact absurd hsteps.symm (by simp)
  | succ fuel ih =>
    intro target l₁ s l₂ hsteps hinv hstop
    simp only [handlerWalk] at hsteps ⊢
    by_cases hc : target = container
    · rw [if_pos hc] at hsteps ⊢
      cases l₁ with
      | nil =>
        simp only [List.nil_append, List.cons.injEq] at hsteps
        obtain ⟨rfl, rfl⟩ := hsteps
        have hinv' : stepInvoked d els etype related target = true := hinv
        have hstop' : stopsAt target = true := hstop
        exact ⟨rfl, by simp [hinv', hstop']⟩
      | cons a l₁ =>
        simp only [List.cons_append, List.cons.injEq] at hsteps
        exact absurd hsteps.2.symm (by simp)
    · rw [if_neg hc] at hsteps ⊢
      by_cases hb : (stepInvoked d els etype related target && stopsAt target) = true
      · rw [if_pos hb] at hsteps ⊢
        cases l₁ with
        | nil =>
          simp only [List.nil_append, List.cons.injEq] at hsteps
          obtain ⟨rfl, rfl⟩ := hsteps
          exact ⟨rfl, rfl⟩
        | cons a l₁ =>
          simp only [List.cons_append, List.cons.injEq] at hsteps
          exact absurd hsteps.2.symm (by simp)
      · rw [if_neg hb] at hsteps ⊢
        cases hp : d.parent target with
        | none =>
          rw [hp] at hsteps
          simp only [] at hsteps ⊢
          cases l₁ with
          | nil =>
            simp only [List.nil_append, List.cons.injEq] at hsteps
            obtain ⟨rfl, rfl⟩ := hsteps
            have hinv' : stepInvoked d els etype related target = true := hinv
            have hstop' : stopsAt target = true := hstop
            exact absurd (by simp [hinv', hstop']) hb
          | cons a l₁ =>
            simp only [List.cons_append, List.cons.injEq] at hsteps
            exact absurd hsteps.2.symm (by simp)
        | some p =>
          rw [hp] at hsteps
          simp only [] at hsteps ⊢
          cases l₁ with
          | nil =>
            simp only [List.nil_append, List.cons.injEq] at hsteps
            obtain ⟨rfl, -⟩ := hsteps
            have hinv' : stepInvoked d els etype related target = true := hinv
            have hstop' : stopsAt target = true := hstop
            exact absurd (by simp [hinv', hstop']) hb
          | cons a l₁ =>
            simp only [List.cons_append, List.cons.injEq] at hsteps
            exact ih p l₁ s l₂ hsteps.2 hinv hstop

/-- Witness for `C4_innerStop_halts_walk`: a click-like dispatch at node 1
whose handler stops propagation; the step at node 1 is the only one and
the native stop was called. -/
theorem C4_innerStop_halts_walk_witness :
    (handlerWalk domEx elsEx 0 "mouseover" none (fun n => n == 1) 2 1).steps
        = [] ++ (⟨1, true⟩ : Step) :: []
    ∧ (⟨1, true⟩ : Step).invoked = true
    ∧ (fun n => n == 1) (⟨1, true⟩ : Step).node = true
    ∧ (handlerWalk domEx elsEx 0 "mouseover" none (fun n => n == 1) 2 1).nativeStopped = true := by
  have h := C4_innerStop_halts_walk domEx elsEx 0 "mouseover" none (fun n => n == 1) 2 1
    [] ⟨1, true⟩ [] (by decide) (by decide) (by decide)
  exact ⟨by decide, by decide, by decide, h.2⟩

/-- C8: when the event target is the container or one of its descendants,
the simulated walk terminates (the loop exits with `stopped = true`, no
null-parent dereference happens), every visited node is an inclusive
descendant of the container, and no visited node is a proper ancestor of
the container — so no handler lookup is performed above the container. -/
theorem C8_walk_terminates_below_container
    (d : Dom) (els : List Binding) (etype : String) (related : Option Nat)
    (stopsAt : Nat → Bool) (container : Nat) :
    ∀ fuel target, containsNode d container target = true →
      d.depth target < d.depth container + fuel →
      (handlerWalk d els container etype related stopsAt fuel target).finished = true
      ∧ (handlerWalk d els container etype related stopsAt fuel target).crashed = false
      ∧ ∀ s ∈ (handlerWalk d els container etype related stopsAt fuel target).steps,
          containsNode d container s.node = true
          ∧ (s.node ≠ container → containsNode d s.node container = false) := by
  intro fuel
  induction fuel with
  | zero =>
    intro target hdesc hfuel
    have := containsAux_depth_le d container _ _ hdesc
    omega
  | succ fuel ih =>
    intro target hdesc hfuel
    simp only [handlerWalk]
    by_cases hc : target = container
    · subst hc
      rw [if_pos rfl]
      refine ⟨rfl, rfl, ?_⟩
      intro s hs
      simp only [List.mem_singleton] at hs
      subst hs
      exact ⟨containsNode_refl d target, fun h => absurd rfl h⟩
    · rw [if_neg hc]
      obtain ⟨p, hp, hcp⟩ := containsNode_step d container target (fun h => hc h.symm) hdesc
      have hdp := d.parent_depth target p hp
      by_cases hb : (stepInvoked d els etype related target && stopsAt target) = true
      · rw [if_pos hb]
        refine ⟨rfl, rfl, ?_⟩
        intro s hs
        simp only [List.mem_singleton] at hs
        subst hs
        exact ⟨hdesc, fun _ => not_proper_ancestor d container target hdesc hc⟩
      · rw [if_neg hb]
        rw [hp]
        simp only []
        have hrec := ih p hcp (by omega)
        refine ⟨hrec.1, hrec.2.1, ?_⟩
        intro s hs
        simp only [List.mem_cons] at hs
        rcases hs with rfl | hs
        · exact ⟨hdesc, fun _ => not_proper_ancestor d container target hdesc hc⟩
        · exact hrec.2.2 s hs

/-- Witness for `C8_walk_terminates_below_container`: the concrete
two-node walk from node 1 up to container 0. -/
theorem C8_walk_terminates_below_container_witness :
    containsNode domEx 0 1 = true
    ∧ domEx.depth 1 < domEx.depth 0 + 2
    ∧ (handlerWalk domEx elsEx 0 "mouseover" none (fun _ => false) 2 1).finished = true
    ∧ (handlerWalk domEx elsEx 0 "mouseover" none (fun _ => false) 2 1).crashed = false
    ∧ (⟨1, true⟩ : Step) ∈ (handlerWalk domEx elsEx 0 "mouseover" none (fun _ => false) 2 1).steps
    ∧ containsNode domEx 0 (⟨1, true⟩ : Step).node = true
    ∧ containsNode domEx (⟨1, true⟩ : Step).node 0 = false := by
  have h := C8_walk_terminates_below_container domEx elsEx "mouseover" none (fun _ => false) 0 2 1
    (by decide) (by decide)
  have hmem : (⟨1, true⟩ : Step) ∈
      (handlerWalk domEx elsEx 0 "mouseover" none (fun _ => false) 2 1).steps := by decide
  have hs := h.2.2 ⟨1, true⟩ hmem
  exact ⟨by decide, by decide, h.1, h.2.1, hmem, hs.1, hs.2 (by decide)⟩

/-! ## `Component.define`

A `BindingSpec` is one argument of `define(...elements)`: the binding's
name, the keys of its `handlers` map in iteration order, whether it has a
`startup` hook, and the node list its initial `resolveNodes()` yields.
`CompState` carries the Component's `elements` map (insertion-ordered),
`registeredHandlers` (the event types with an installed delegating
listener), the transient `touches` state, plus two instrumentation logs:
every native `addEventListener` call on the container (`listeners`) and
every `startup()` invocation (`startupLog`, by binding name). -/

structure BindingSpec where
  name : String
  handlerTypes : List String
  hasStartup : Bool
  initNodes : List Nat
deriving DecidableEq, Repr

inductive ListenerKind where
  | delegated
  | touchRecorder
deriving DecidableEq, Repr

structure Listener where
  etype : String
  capturing : Bool
  kind : ListenerKind
deriving DecidableEq, Repr

structure CompState where
  elements : List Binding
  registeredHandlers : List String
  touches : Bool
  listeners : List Listener
  startupLog : List String
deriving DecidableEq, Repr

/-- State right after `Component.init`. -/
def initComp : CompState := ⟨[], [], false, [], []⟩

def capturingTypes : List String := ["blur", "focus", "mouseenter", "mouseleave"]

/-- JS `Map.set`: overwrite in place when the key exists (keeping its
insertion position), else append. -/
def mapSet (els : List Binding) (b : Binding) : List Binding :=
  if els.any (fun e => e.name == b.name) then
    els.map (fun e => if e.name == b.name then b else e)
  else els ++ [b]

/-- Body of `for (let eventType in element.handlers)` in `Component.define`:
install the single delegating listener when none is registered for the
type, and on the first `touchmove` also install the `touchstart`
coordinate recorder (which is NOT entered into `registeredHandlers`). -/
def installType (s : CompState) (etype : String) : CompState :=
  if s.registeredHandlers.contains etype then s
  else
    let s' : CompState :=
      { s with
        listeners := s.listeners ++ [⟨etype, capturingTypes.contains etype, .delegated⟩],
        registeredHandlers := s.registeredHandlers ++ [etype] }
    if etype == "touchmove" && !s'.touches then
      { s' with
        touches := true,
        listeners := s'.listeners ++ [⟨"touchstart", false, .touchRecorder⟩] }
    else s'

def toBinding (spec : BindingSpec) : Binding :=
  ⟨spec.name, spec.initNodes, spec.handlerTypes, spec.hasStartup⟩

/-- Names of the bindings whose `startup` fires in the source's
`for (let element of this.elements.values())` loop: those present in the
Component with a non-empty node cache and a `startup` hook. -/
def startupNames (els : List Binding) : List String :=
  (els.filter (fun e => !e.nodes.isEmpty && e.hasStartup)).map (fun e => e.name)

/-- One iteration of the OUTER `for (let element of elements)` loop of
`Component.define`.  Note that the startup loop is part of this per-spec
iteration in the source (it sits inside the outer loop). -/
def defineStep (s : CompState) (spec : BindingSpec) : CompState :=
  let s₁ : CompState := { s with elements := mapSet s.elements (toBinding spec) }
  let s₂ := spec.handlerTypes.foldl installType s₁
  { s₂ with startupLog := s₂.startupLog ++ startupNames s₂.elements }

/-- `Component.define(...specs)`. -/
def define (s : CompState) (specs : List BindingSpec) : CompState :=
  specs.foldl defineStep s

/-- A sequence of `define` calls on the same Component. -/
def defineCalls (s : CompState) (calls : List (List BindingSpec)) : CompState :=
  calls.foldl define s

/-- C3 (counterexample): one `define` call declaring both a `touchmove` and
a `touchstart` handler installs TWO native `touchstart` listeners on the
container: the coordinate recorder added by the `touchmove` branch (which
is not entered into `registeredHandlers`) plus the delegating listener. -/
theorem C3_counterexample :
    ((define initComp [⟨"area", ["touchmove", "touchstart"], false, [1]⟩]).listeners.filter
        (fun l => l.etype == "touchstart")).length = 2
    ∧ ¬(((define initComp [⟨"area", ["touchmove", "touchstart"], false, [1]⟩]).listeners.filter
        (fun l => l.etype == "touchstart")).length ≤ 1) :=
  ⟨by decide, by decide⟩

/-- Splitting a per-type listener count by listener kind. -/
theorem listener_count_split (ls : List Listener) (t : String) :
    (ls.filter (fun l => l.etype == t)).length
      = (ls.filter (fun l => l.etype == t && l.kind == ListenerKind.delegated)).length
        + (ls.filter (fun l => l.etype == t && l.kind == ListenerKind.touchRecorder)).length := by
  induction ls with
  | nil => rfl
  | cons l ls ih =>
    simp only [List.filter_cons]
    cases hk : l.kind <;> by_cases ht : l.etype == t <;>
      simp [ht, hk, ih] <;> omega

/-- A conjunctive filter is no longer than the filter on one conjunct. -/
theorem filter_and_length_le (ls : List Listener) (p q : Listener → Bool) :
    (ls.filter (fun l => p l && q l)).length ≤ (ls.filter q).length := by
  induction ls with
  | nil => exact Nat.le_refl 0
  | cons l ls ih =>
    simp only [List.filter_cons]
    by_cases hq : q l = true
    · by_cases hp : p l = true <;> simp [hp, hq] <;> omega
    · simp only [Bool.not_eq_true] at hq
      simp [hq]
      exact ih

/-- Invariant tying the listener log to `registeredHandlers` and `touches`:
exactly one delegating listener per registered type, none otherwise; exactly
one touch recorder once `touches` is set; recorders listen to `touchstart`. -/
def listenerInv (s : CompState) : Prop :=
  (∀ t, (s.listeners.filter (fun l => l.etype == t && l.kind == ListenerKind.delegated)).length
      = (if s.registeredHandlers.contains t then 1 else 0))
  ∧ (s.listeners.filter (fun l => l.kind == ListenerKind.touchRecorder)).length
      = (if s.touches then 1 else 0)
  ∧ ∀ l ∈ s.listeners, l.kind = ListenerKind.touchRecorder → l.etype = "touchstart"

theorem listenerInv_init : listenerInv initComp := by
  refine ⟨fun t => by simp [initComp], by simp [initComp], by simp [initComp]⟩

theorem listenerInv_installType (s : CompState) (etype : String)
    (h : listenerInv s) : listenerInv (installType s etype) := by
  obtain ⟨h1, h2, h3⟩ := h
  unfold installType
  by_cases hreg : s.registeredHandlers.contains etype = true
  · rw [if_pos hreg]
    exact ⟨h1, h2, h3⟩
  · have hreg' : etype ∉ s.registeredHandlers := by simpa using hreg
    rw [if_neg hreg]
    by_cases htouch : (etype == "touchmove" && !s.touches) = true
    · rw [if_pos htouch]
      simp only [Bool.and_eq_true, beq_iff_eq, Bool.not_eq_true'] at htouch
      obtain ⟨hmv, hnt⟩ := htouch
      refine ⟨?_, ?_, ?_⟩
      · intro t
        by_cases ht : etype = t
        · subst ht
          simp [List.filter_append, h1 etype, hreg']
        · have ht2 : ¬(t = etype) := fun hh => ht hh.symm
          simp [List.filter_append, h1 t, ht, ht2]
      · simp [List.filter_append, h2, hnt]
      · intro l hl
        simp only [List.mem_append, List.mem_singleton] at hl
        rcases hl with (hl | hl) | hl
        · exact h3 l hl
        · subst hl; intro hk; cases hk
        · subst hl; intro _; rfl
    · rw [if_neg htouch]
      refine ⟨?_, ?_, ?_⟩
      · intro t
        by_cases ht : etype = t
        · subst ht
          simp [List.filter_append, h1 etype, hreg']
        · have ht2 : ¬(t = etype) := fun hh => ht hh.symm
          simp [List.filter_append, h1 t, ht, ht2]
      · simp [List.filter_append, h2]
      · intro l hl
        simp only [List.mem_append, List.mem_singleton] at hl
        rcases hl with hl | hl
        · exact h3 l hl
        · subst hl; intro hk; cases hk

theorem listenerInv_foldl (types : List String) :
    ∀ s, listenerInv s → listenerInv (types.foldl installType s) := by
  induction types with
  | nil => intro s h; exact h
  | cons t types ih => intro s h; exact ih _ (listenerInv_installType s t h)

theorem listenerInv_defineStep (s : CompState) (spec : BindingSpec)
    (h : listenerInv s) : listenerInv (defineStep s spec) := by
  unfold defineStep
  exact listenerInv_foldl spec.handlerTypes _ h

theorem listenerInv_define (specs : List BindingSpec) :
    ∀ s, listenerInv s → listenerInv (define s specs) := by
  induction specs with
  | nil => intro s h; exact h
  | cons sp specs ih => intro s h; exact ih _ (listenerInv_defineStep s sp h)

theorem listenerInv_defineCalls (calls : List (List BindingSpec)) :
    ∀ s, listenerInv s → listenerInv (defineCalls s calls) := by
  induction calls with
  | nil => intro s h; exact h
  | cons c calls ih => intro s h; exact ih _ (listenerInv_define c s h)

/-- C3 (amended): across any sequence of `define` calls on a Component, at
most one DELEGATING native listener is ever installed per event type; the
only doubling is the `touchstart` coordinate recorder installed alongside
the first `touchmove` listener, which is not entered in
`registeredHandlers`.  Hence every event type other than `touchstart` has
at most one native listener on the container, and `touchstart` has at most
two (and does reach two when both `touchmove` and `touchstart` handlers are
declared, see the counterexample). -/
theorem C3_listener_count
    (calls : List (List BindingSpec)) (t : String) (ht : t ≠ "touchstart") :
    ((defineCalls initComp calls).listeners.filter (fun l => l.etype == t)).length ≤ 1
    ∧ ((defineCalls initComp calls).listeners.filter
        (fun l => l.etype == "touchstart")).length ≤ 2 := by
  obtain ⟨h1, h2, h3⟩ := listenerInv_defineCalls calls initComp listenerInv_init
  constructor
  · rw [listener_count_split]
    have hr : ((defineCalls initComp calls).listeners.filter
        (fun l => l.etype == t && l.kind == ListenerKind.touchRecorder)).length = 0 := by
      rw [List.length_eq_zero, List.filter_eq_nil_iff]
      intro l hl
      simp only [Bool.and_eq_true, beq_iff_eq, not_and]
      intro hlt hlk
      exact absurd (hlt ▸ h3 l hl hlk) ht
    rw [hr, h1 t]
    split <;> omega
  · rw [listener_count_split]
    have hd := h1 "touchstart"
    have hr := filter_and_length_le (defineCalls initComp calls).listeners
      (fun l => l.etype == "touchstart") (fun l => l.kind == ListenerKind.touchRecorder)
    rw [h2] at hr
    rw [hd]
    split <;> (split at hr <;> omega)

/-- Witness for `C3_listener_count` at the concrete call that declares both
`touchmove` and `touchstart` handlers. -/
theorem C3_listener_count_witness :
    ("touchmove" : String) ≠ "touchstart"
    ∧ ((defineCalls initComp [[⟨"area", ["touchmove", "touchstart"], false, [1]⟩]]).listeners.filter
        (fun l => l.etype == "touchmove")).length ≤ 1
    ∧ ((defineCalls initComp [[⟨"area", ["touchmove", "touchstart"], false, [1]⟩]]).listeners.filter
        (fun l => l.etype == "touchstart")).length ≤ 2 := by
  have h := C3_listener_count [[⟨"area", ["touchmove", "touchstart"], false, [1]⟩]]
    "touchmove" (by decide)
  exact ⟨by decide, h.1, h.2⟩

/-! ## The `startup` re-invocation behaviour of `Component.define` -/

/-- C2 (counterexample): a single `define` call with two specs, both with
`startup` hooks and non-empty initial node caches.  The startup loop sits
inside the per-spec loop, so binding `a`'s `startup` fires after spec `a`
registers (before `b` is registered) and again after spec `b` registers:
twice within one call. -/
theorem C2_counterexample :
    (define initComp [⟨"a", [], true, [1]⟩, ⟨"b", [], true, [2]⟩]).startupLog = ["a", "a", "b"]
    ∧ ¬((define initComp [⟨"a", [], true, [1]⟩, ⟨"b", [], true, [2]⟩]).startupLog.count "a" ≤ 1) :=
  ⟨by decide, by decide⟩

theorem mapSet_fresh (els : List Binding) (b : Binding)
    (h : b.name ∉ els.map (fun e => e.name)) : mapSet els b = els ++ [b] := by
  unfold mapSet
  rw [if_neg]
  simp only [List.any_eq_true, beq_iff_eq, not_exists]
  intro e
  rintro ⟨he, hname⟩
  exact h (hname ▸ List.mem_map_of_mem _ he)

theorem installType_keeps (s : CompState) (t : String) :
    (installType s t).elements = s.elements ∧ (installType s t).startupLog = s.startupLog := by
  unfold installType
  split
  · exact ⟨rfl, rfl⟩
  · refine ⟨?_, ?_⟩ <;>
    · simp only []
      split <;> rfl

theorem foldl_installType_keeps (types : List String) :
    ∀ s, ((types.foldl installType s).elements = s.elements
      ∧ (types.foldl installType s).startupLog = s.startupLog) := by
  induction types with
  | nil => intro s; exact ⟨rfl, rfl⟩
  | cons t types ih =>
    intro s
    have h1 := installType_keeps s t
    have h2 := ih (installType s t)
    exact ⟨h2.1.trans h1.1, h2.2.trans h1.2⟩

theorem defineStep_fresh (s : CompState) (spec : BindingSpec)
    (hfresh : (toBinding spec).name ∉ s.elements.map (fun e => e.name)) :
    (defineStep s spec).elements = s.elements ++ [toBinding spec]
    ∧ (defineStep s spec).startupLog
        = s.startupLog ++ startupNames (s.elements ++ [toBinding spec]) := by
  have hmap : mapSet s.elements (toBinding spec) = s.elements ++ [toBinding spec] :=
    mapSet_fresh s.elements (toBinding spec) hfresh
  have hf := foldl_installType_keeps spec.handlerTypes
    ⟨mapSet s.elements (toBinding spec), s.registeredHandlers, s.touches, s.listeners, s.startupLog⟩
  constructor
  · show (spec.handlerTypes.foldl installType
      ⟨mapSet s.elements (toBinding spec), s.registeredHandlers, s.touches,
        s.listeners, s.startupLog⟩).elements = _
    rw [hf.1]
    exact hmap
  · show (spec.handlerTypes.foldl installType
        ⟨mapSet s.elements (toBinding spec), s.registeredHandlers, s.touches,
          s.listeners, s.startupLog⟩).startupLog
      ++ startupNames (spec.handlerTypes.foldl installType
        ⟨mapSet s.elements (toBinding spec), s.registeredHandlers, s.touches,
          s.listeners, s.startupLog⟩).elements = _
    rw [hf.1, hf.2, hmap]

/-- The sequence of `startup` invocations produced by one `define` call,
spec by spec: after registering each spec, `startup` fires on every binding
of the Component with a non-empty cache and a hook. -/
def startupTrace (E : List Binding) : List BindingSpec → List String
  | [] => []
  | spec :: rest =>
    startupNames (E ++ [toBinding spec]) ++ startupTrace (E ++ [toBinding spec]) rest

theorem define_startupLog (specs : List BindingSpec) :
    ∀ s, ((s.elements.map (fun e => e.name)) ++ specs.map (fun sp => sp.name)).Nodup →
      (define s specs).elements = s.elements ++ specs.map toBinding
      ∧ (define s specs).startupLog = s.startupLog ++ startupTrace s.elements specs := by
  induction specs with
  | nil =>
    intro s _
    exact ⟨by simp [define], by simp [define, startupTrace]⟩
  | cons spec rest ih =>
    intro s h
    have hdisj := (List.nodup_append.mp h).2.2
    have hfresh : (toBinding spec).name ∉ s.elements.map (fun e => e.name) := by
      intro hmem
      exact hdisj hmem (List.mem_cons_self _ _)
    have hstep := defineStep_fresh s spec hfresh
    have hnext : (((defineStep s spec).elements.map (fun e => e.name))
        ++ rest.map (fun sp => sp.name)).Nodup := by
      rw [hstep.1]
      simp only [List.map_cons] at h
      simpa [toBinding, List.append_assoc] using h
    have hrest := ih (defineStep s spec) hnext
    have hdef : define s (spec :: rest) = define (defineStep s spec) rest := rfl
    constructor
    · rw [hdef, hrest.1, hstep.1]
      simp [List.append_assoc]
    · rw [hdef, hrest.2, hstep.2, hstep.1]
      simp [startupTrace, List.append_assoc]

theorem startupNames_count_zero (F : List Binding) (n : String)
    (h : ∀ b ∈ F, b.name ≠ n) : (startupNames F).count n = 0 := by
  induction F with
  | nil => rfl
  | cons e F ih =>
    have he := h e (List.mem_cons_self e F)
    have ih' := ih (fun b hb => h b (List.mem_cons_of_mem e hb))
    unfold startupNames at ih' ⊢
    simp only [List.filter_cons]
    by_cases hp : (!e.nodes.isEmpty && e.hasStartup) = true
    · simp only [hp, if_true, List.map_cons]
      rw [List.count_cons_of_ne (fun hh => he hh.symm)]
      exact ih'
    · simp only [hp, if_false]
      exact ih'

theorem startupNames_count_one (F : List Binding) (b : Binding)
    (hb : b ∈ F) (hpass : (!b.nodes.isEmpty && b.hasStartup) = true)
    (hnodup : (F.map (fun e => e.name)).Nodup) :
    (startupNames F).count b.name = 1 := by
  induction F with
  | nil => cases hb
  | cons e F ih =>
    simp only [List.map_cons, List.nodup_cons] at hnodup
    obtain ⟨hen, hnd⟩ := hnodup
    unfold startupNames
    simp only [List.filter_cons]
    rcases List.mem_cons.mp hb with rfl | hbF
    · simp only [hpass, if_true, List.map_cons]
      rw [List.count_cons_self]
      have hz : (startupNames F).count b.name = 0 :=
        startupNames_count_zero F b.name
          (fun c hc hcn => hen (hcn ▸ List.mem_map_of_mem _ hc))
      unfold startupNames at hz
      rw [hz]
    · have hne : e.name ≠ b.name := by
        intro hh
        exact hen (hh ▸ List.mem_map_of_mem _ hbF)
      have ihr := ih hbF hnd
      unfold startupNames at ihr
      by_cases hp : (!e.nodes.isEmpty && e.hasStartup) = true
      · simp only [hp, if_true, List.map_cons]
        rw [List.count_cons_of_ne (fun hh => hne hh.symm)]
        exact ihr
      · simp only [hp, if_false]
        exact ihr

theorem startupTrace_count_mem (b : Binding)
    (hpass : (!b.nodes.isEmpty && b.hasStartup) = true) :
    ∀ (specs : List BindingSpec) (E : List Binding), b ∈ E →
      ((E.map (fun e => e.name)) ++ specs.map (fun sp => sp.name)).Nodup →
      (startupTrace E specs).count b.name = specs.length := by
  intro specs
  induction specs with
  | nil => intro E _ _; rfl
  | cons spec rest ih =>
    intro E hbE hnodup
    unfold startupTrace
    rw [List.count_append]
    have hE' : b ∈ E ++ [toBinding spec] := List.mem_append_left _ hbE
    have hnodup' : (((E ++ [toBinding spec]).map (fun e => e.name))
        ++ rest.map (fun sp => sp.name)).Nodup := by
      simp only [List.map_cons] at hnodup
      simpa [toBinding, List.append_assoc] using hnodup
    have h1 : (startupNames (E ++ [toBinding spec])).count b.name = 1 :=
      startupNames_count_one _ b hE' hpass (List.nodup_append.mp hnodup').1
    rw [h1, ih (E ++ [toBinding spec]) hE' hnodup']
    simp [Nat.add_comm]

theorem startupTrace_count (specs : List BindingSpec) :
    ∀ (E : List Binding) (j : Nat) (hj : j < specs.length),
      ((E.map (fun e => e.name)) ++ specs.map (fun sp => sp.name)).Nodup →
      (∀ sp ∈ specs, sp.hasStartup = true ∧ sp.initNodes ≠ []) →
      (startupTrace E specs).count (specs.get ⟨j, hj⟩).name = specs.length - j := by
  induction specs with
  | nil => intro E j hj; exact absurd hj (by simp)
  | cons spec rest ih =>
    intro E j hj hnodup hpass
    have hp := hpass spec (List.mem_cons_self _ _)
    have hpassb : (!(toBinding spec).nodes.isEmpty && (toBinding spec).hasStartup) = true := by
      cases hn : spec.initNodes with
      | nil => exact absurd hn hp.2
      | cons x xs => simp [toBinding, hp.1, hn]
    have hnodup' : (((E ++ [toBinding spec]).map (fun e => e.name))
        ++ rest.map (fun sp => sp.name)).Nodup := by
      simp only [List.map_cons] at hnodup
      simpa [toBinding, List.append_assoc] using hnodup
    unfold startupTrace
    rw [List.count_append]
    match j with
    | 0 =>
      have h1 : (startupNames (E ++ [toBinding spec])).count spec.name = 1 :=
        startupNames_count_one _ (toBinding spec)
          (List.mem_append_right _ (List.mem_singleton.mpr rfl)) hpassb
          (List.nodup_append.mp hnodup').1
      have h2 : (startupTrace (E ++ [toBinding spec]) rest).count spec.name = rest.length :=
        startupTrace_count_mem (toBinding spec) hpassb rest (E ++ [toBinding spec])
          (List.mem_append_right _ (List.mem_singleton.mpr rfl)) hnodup'
      show (startupNames (E ++ [toBinding spec])).count spec.name
          + (startupTrace (E ++ [toBinding spec]) rest).count spec.name = _
      rw [h1, h2]
      simp only [List.length_cons]
      omega
    | j + 1 =>
      have hj' : j < rest.length := by
        simpa using hj
      have hget : ((spec :: rest).get ⟨j + 1, hj⟩) = rest.get ⟨j, hj'⟩ := rfl
      rw [hget]
      set n := (rest.get ⟨j, hj'⟩).name with hn
      have hnmem : n ∈ rest.map (fun sp => sp.name) :=
        List.mem_map_of_mem _ (rest.get_mem j hj')
      have hd := List.nodup_append.mp hnodup
      have hz : (startupNames (E ++ [toBinding spec])).count n = 0 := by
        apply startupNames_count_zero
        intro c hc
        rcases List.mem_append.mp hc with hcE | hcb
        · intro hcn
          refine hd.2.2 (List.mem_map_of_mem _ hcE) ?_
          rw [hcn]
          simp only [List.map_cons]
          exact List.mem_cons_of_mem _ hnmem
        · rw [List.mem_singleton.mp hcb]
          intro hcn
          have hspec : spec.name ∉ rest.map (fun sp => sp.name) := by
            have h5 := hd.2.1
            simp only [List.map_cons, List.nodup_cons] at h5
            exact h5.1
          apply hspec
          have hcn' : spec.name = n := hcn
          rw [hcn']
          exact hnmem
      rw [hz, ih (E ++ [toBinding spec]) j hj' hnodup'
        (fun sp hsp => hpass sp (List.mem_cons_of_mem _ hsp))]
      simp

/-- C2 (amended): the startup loop of `Component.define` runs once per
spec, inside the outer per-spec loop, over ALL bindings of the Component.
Hence in a single call `define(spec1, ..., specK)` whose specs have
pairwise-distinct names, `startup` hooks and non-empty initial node caches,
the binding registered by the `(j+1)`-th spec (0-based index `j`) has its
`startup` invoked exactly `K − j` times within that call — its first
invocation happening right after its own spec registers and before the
later specs are registered, not once after all `K` are registered. -/
theorem C2_startup_count
    (specs : List BindingSpec)
    (hnodup : (specs.map (fun sp => sp.name)).Nodup)
    (hpass : ∀ sp ∈ specs, sp.hasStartup = true ∧ sp.initNodes ≠ [])
    (j : Nat) (hj : j < specs.length) :
    ((define initComp specs).startupLog).count ((specs.get ⟨j, hj⟩).name)
      = specs.length - j := by
  have hd := define_startupLog specs initComp (by simpa [initComp] using hnodup)
  rw [hd.2]
  show (([] : List String) ++ startupTrace ([] : List Binding) specs).count _ = _
  rw [List.nil_append]
  exact startupTrace_count specs [] j hj (by simpa using hnodup) hpass

/-- Witness for `C2_startup_count` at the two-spec call of the
counterexample: binding `a` (index 0 of 2) has its startup invoked
`2 − 0 = 2` times. -/
theorem C2_startup_count_witness :
    ((define initComp [⟨"a", [], true, [1]⟩, ⟨"b", [], true, [2]⟩]).startupLog).count
        ((([⟨"a", [], true, [1]⟩, ⟨"b", [], true, [2]⟩] : List BindingSpec).get
          ⟨0, by decide⟩).name)
      = ([⟨"a", [], true, [1]⟩, ⟨"b", [], true, [2]⟩] : List BindingSpec).length - 0 :=
  C2_startup_count [⟨"a", [], true, [1]⟩, ⟨"b", [], true, [2]⟩]
    (by decide) (by decide) 0 (by decide)

/-! ## The Hub

Components are modelled by `CompRef`: a unique `id` standing for the JS
object's reference identity (the `component !== observer.component` test
compares ids) and the `container` node.  JS payload objects are ordered
key-value lists (`Obj`); `setKey` is JS property assignment (update in
place if the key exists, else append) and `assignObj` is `Object.assign`
folding one source object into a target. -/

inductive Val where
  | compRef (id : Nat)
  | str (s : String)
deriving DecidableEq, Repr

abbrev Obj := List (String × Val)

def getKey (o : Obj) (k : String) : Option Val :=
  (o.find? (fun kv => kv.1 == k)).map (fun kv => kv.2)

def setKey : Obj → String → Val → Obj
  | [], k, v => [(k, v)]
  | (k₁, v₁) :: o, k, v =>
    if k₁ == k then (k₁, v) :: o else (k₁, v₁) :: setKey o k v

def assignObj (target source : Obj) : Obj :=
  source.foldl (fun acc kv => setKey acc kv.1 kv.2) target

structure CompRef where
  id : Nat
  container : Nat
deriving DecidableEq, Repr

structure Observer where
  component : CompRef
  event : String
  handler : Nat
deriving DecidableEq, Repr

/-- The `forEach` loop of `Hub.broadcast`: invoke, in registration order,
every observer with `component !== sender && event === observer.event`,
each receiving the (single) pre-assembled payload object.  An invocation is
recorded as the observer's handler id paired with the payload it gets. -/
def broadcastGo (senderId : Nat) (event : String) (fullPayload : Obj) :
    List Observer → List (Nat × Obj)
  | [] => []
  | o :: rest =>
    if (senderId != o.component.id) && (event == o.event) then
      (o.handler, fullPayload) :: broadcastGo senderId event fullPayload rest
    else broadcastGo senderId event fullPayload rest

/-- `Hub.broadcast(component, event, payload)`: build
`Object.assign(Object.create(null), {target: component}, payload)` once,
then run the observer loop. -/
def broadcast (observers : List Observer) (sender : CompRef) (event : String)
    (payload : Obj) : List (Nat × Obj) :=
  broadcastGo sender.id event
    (assignObj (assignObj [] [("target", Val.compRef sender.id)]) payload) observers

/-- `Component.emit(event, payload)` delegates to `Hub.broadcast` with the
Component as sender. -/
def emit (observers : List Observer) (self : CompRef) (event : String)
    (payload : Obj) : List (Nat × Obj) :=
  broadcast observers self event payload

theorem getKey_setKey_self (o : Obj) (k : String) (v : Val) :
    getKey (setKey o k v) k = some v := by
  induction o with
  | nil => simp [setKey, getKey]
  | cons kv o ih =>
    obtain ⟨k₁, v₁⟩ := kv
    unfold setKey
    by_cases hk : k₁ == k
    · simp only [hk, if_true]
      simp only [getKey, List.find?_cons, hk]
      rfl
    · simp only [hk, Bool.false_eq_true, if_false]
      simp only [getKey, List.find?_cons, hk] at ih ⊢
      exact ih

theorem getKey_setKey_ne (o : Obj) (k k' : String) (v : Val) (hne : k' ≠ k) :
    getKey (setKey o k v) k' = getKey o k' := by
  induction o with
  | nil =>
    simp only [setKey, getKey, List.find?_cons, List.find?_nil]
    have : (k == k') = false := by simpa using fun hh => hne hh.symm
    simp [this]
  | cons kv o ih =>
    obtain ⟨k₁, v₁⟩ := kv
    unfold setKey
    by_cases hk : k₁ == k
    · have hk' : (k₁ == k') = false := by
        have : k₁ = k := by simpa using hk
        simpa [this] using fun hh => hne hh.symm
      simp only [hk, if_true]
      simp only [getKey, List.find?_cons, hk']
    · simp only [hk, Bool.false_eq_true, if_false]
      by_cases hk₁ : k₁ == k'
      · simp only [getKey, List.find?_cons, hk₁]
      · simp only [getKey, List.find?_cons, hk₁] at ih ⊢
        exact ih

theorem getKey_eq_none (o : Obj) (k : String)
    (h : k ∉ o.map Prod.fst) : getKey o k = none := by
  induction o with
  | nil => rfl
  | cons kv o ih =>
    obtain ⟨k₁, v₁⟩ := kv
    simp only [List.map_cons, List.mem_cons, not_or] at h
    have hk : (k₁ == k) = false := by simpa using fun hh => h.1 hh.symm
    simp only [getKey, List.find?_cons, hk]
    exact ih h.2

/-- `Object.assign` overlay semantics: a key present in the source wins,
otherwise the target's value shows through. -/
theorem getKey_assignObj (source : List (String × Val)) :
    ∀ (target : Obj) (k : String), (source.map Prod.fst).Nodup →
      getKey (assignObj target source) k
        = match getKey source k with
          | some v => some v
          | none => getKey target k := by
  induction source with
  | nil => intro target k _; rfl
  | cons kv source ih =>
    intro target k hnodup
    obtain ⟨k₁, v₁⟩ := kv
    simp only [List.map_cons, List.nodup_cons] at hnodup
    obtain ⟨hk₁, hnd⟩ := hnodup
    have hstep : assignObj target ((k₁, v₁) :: source) = assignObj (setKey target k₁ v₁) source := rfl
    rw [hstep, ih (setKey target k₁ v₁) k hnd]
    by_cases hk : k = k₁
    · subst hk
      have hsrc : getKey source k = none := getKey_eq_none source k hk₁
      rw [hsrc, getKey_setKey_self]
      simp only [getKey, List.find?_cons, BEq.refl]
      rfl
    · have hfind : (k₁ == k) = false := by simpa using fun hh => hk hh.symm
      have hbase := getKey_setKey_ne target k₁ k v₁ hk
      simp only [getKey, List.find?_cons, hfind]
      cases hsrc : getKey source k with
      | none =>
        simp only [getKey] at hsrc
        rw [hsrc]
        exact hbase
      | some v =>
        simp only [getKey] at hsrc
        rw [hsrc]

/-- C5: `Hub.broadcast(sender, event, payload)` synchronously invokes, in
registration order, exactly the observers whose `event` matches and whose
component is not the sender (no self-delivery), each receiving the single
payload object built by overlaying the caller's payload fields onto
`{target: sender}` — a caller-supplied `target` key silently overrides the
default, and an absent one yields `target = sender`. -/
theorem C5_broadcast_delivery
    (observers : List Observer) (sender : CompRef) (event : String)
    (payload : Obj) (k : String)
    (hkeys : (payload.map Prod.fst).Nodup) :
    broadcast observers sender event payload
      = (observers.filter (fun o => (sender.id != o.component.id) && (event == o.event))).map
          (fun o => (o.handler, assignObj [("target", Val.compRef sender.id)] payload))
    ∧ getKey (assignObj [("target", Val.compRef sender.id)] payload) k
        = (match getKey payload k with
           | some v => some v
           | none => if ("target" : String) == k then some (Val.compRef sender.id) else none) := by
  constructor
  · unfold broadcast
    show broadcastGo sender.id event
        (assignObj [("target", Val.compRef sender.id)] payload) observers = _
    induction observers with
    | nil => rfl
    | cons o rest ih =>
      unfold broadcastGo
      by_cases hc : ((sender.id != o.component.id) && (event == o.event)) = true
      · simp [List.filter_cons, hc, ih]
      · simp only [Bool.not_eq_true] at hc
        simp [List.filter_cons, hc, ih]
  · rw [getKey_assignObj payload _ k hkeys]
    cases hsrc : getKey payload k with
    | some v => rfl
    | none =>
      simp only [getKey, List.find?_cons, List.find?_nil]
      by_cases ht : ("target" == k) = true
      · simp [ht]
      · simp only [Bool.not_eq_true] at ht
        simp [ht]

/-- Witness for `C5_broadcast_delivery`: the spec's scenario — `A` (id 1)
emits `"ping"` with payload `{key: "v"}`; `B`'s observer receives
`{target: A, key: "v"}` and `A`'s own subscription is skipped. -/
theorem C5_broadcast_delivery_witness :
    (([("key", Val.str "v")] : Obj).map Prod.fst).Nodup
    ∧ broadcast [⟨⟨2, 20⟩, "ping", 7⟩, ⟨⟨1, 10⟩, "ping", 8⟩] ⟨1, 10⟩ "ping" [("key", Val.str "v")]
        = [(7, [("target", Val.compRef 1), ("key", Val.str "v")])]
    ∧ getKey (assignObj [("target", Val.compRef 1)] [("key", Val.str "v")]) "target"
        = some (Val.compRef 1)
    ∧ getKey (assignObj [("target", Val.compRef 1)] [("key", Val.str "v")]) "key"
        = some (Val.str "v") := by
  have h := C5_broadcast_delivery [⟨⟨2, 20⟩, "ping", 7⟩, ⟨⟨1, 10⟩, "ping", 8⟩] ⟨1, 10⟩ "ping"
    [("key", Val.str "v")] "target" (by decide)
  exact ⟨by decide, h.1.trans (by decide), h.2.trans (by decide), by decide⟩

/-! ## `Hub.delete` -/

structure HubState where
  components : List CompRef
  observers : List Observer
deriving DecidableEq, Repr

/-- The `Array.prototype.some` loop of `Hub.delete`: on the first element
satisfying `p`, `splice(index, 1)` it out and return `true` (stopping the
scan); all other elements stay, in order. -/
def removeFirst {α : Type} (p : α → Bool) : List α → List α
  | [] => []
  | x :: xs => if p x then xs else x :: removeFirst p xs

/-- `Hub.delete(node)`: drop the first Component whose container is `node`
and, separately, the first observer record whose component's container is
`node`. -/
def hubDelete (s : HubState) (node : Nat) : HubState :=
  { components := removeFirst (fun c => c.container == node) s.components,
    observers := removeFirst (fun o => o.component.container == node) s.observers }

theorem removeFirst_eq_eraseP {α : Type} (p : α → Bool) :
    ∀ l : List α, removeFirst p l = l.eraseP p := by
  intro l
  induction l with
  | nil => rfl
  | cons x xs ih =>
    unfold removeFirst
    rw [List.eraseP_cons]
    by_cases hx : p x = true
    · simp [hx]
    · simp only [Bool.not_eq_true] at hx
      simp [hx, ih]

theorem removeFirst_length {α : Type} (p : α → Bool) :
    ∀ l : List α, l.length ≤ (removeFirst p l).length + 1 := by
  intro l
  induction l with
  | nil => simp [removeFirst]
  | cons x xs ih =>
    unfold removeFirst
    by_cases hx : p x = true
    · simp [hx]
    · simp only [Bool.not_eq_true] at hx
      simp only [hx, Bool.false_eq_true, if_false, List.length_cons]
      omega

/-- C6: `Hub.delete(node)` removes exactly the first Component whose
container equals `node` and at most the first matching observer record
(`eraseP` semantics): the surviving entries of both collections are
untouched and keep their relative order (`Sublist`), and at most one entry
leaves each collection even when the deleted component has several
subscriptions. -/
theorem C6_hubDelete_spec (s : HubState) (node : Nat) :
    (hubDelete s node).components = s.components.eraseP (fun c => c.container == node)
    ∧ (hubDelete s node).observers = s.observers.eraseP (fun o => o.component.container == node)
    ∧ (hubDelete s node).components.Sublist s.components
    ∧ (hubDelete s node).observers.Sublist s.observers
    ∧ s.components.length ≤ (hubDelete s node).components.length + 1
    ∧ s.observers.length ≤ (hubDelete s node).observers.length + 1 := by
  refine ⟨removeFirst_eq_eraseP _ _, removeFirst_eq_eraseP _ _, ?_, ?_,
    removeFirst_length _ _, removeFirst_length _ _⟩
  · show List.Sublist (removeFirst (fun c => c.container == node) s.components) s.components
    rw [removeFirst_eq_eraseP]
    exact List.eraseP_sublist _
  · show List.Sublist (removeFirst (fun o => o.component.container == node) s.observers) s.observers
    rw [removeFirst_eq_eraseP]
    exact List.eraseP_sublist _

/-! ## `Element` node-cache operations

`ElemState` is the mutable part of a binding these operations touch: the
cached `nodes` list and whether a `template` function is present (a
"dynamic" binding).  The current result of `utils.queryAll(selector,
container)` — the nodes presently in the tree — is passed in as `q`
since the DOM query is an external collaborator. -/

structure ElemState where
  nodes : List Nat
  hasTemplate : Bool
deriving DecidableEq, Repr

namespace Element

/-- `resolveNodes()`: replace the cache with the current query result. -/
def resolveNodes (q : List Nat) (st : ElemState) : ElemState :=
  { st with nodes := q }

/-- `getAll()`: `if (!this.nodes.length || this.template) this.resolveNodes();
return this.nodes` — also reports whether `resolveNodes` ran. -/
def getAll (q : List Nat) (st : ElemState) : List Nat × ElemState × Bool :=
  if st.nodes.isEmpty || st.hasTemplate then
    ((resolveNodes q st).nodes, resolveNodes q st, true)
  else (st.nodes, st, false)

/-- `get(index)`: `getAll()[index]`, absent when out of range. -/
def get (q : List Nat) (st : ElemState) (index : Nat) : Option Nat :=
  (getAll q st).1[index]?

/-- `removeAll()`: detach every cached node from the tree, then set the
cache to `[]` (no re-query). -/
def removeAll (st : ElemState) : ElemState :=
  { st with nodes := [] }

/-- `render(...)`: if a template exists, build and return one detached
node (`newNode` stands for the `utils.createNode` result); else
`undefined`. -/
def render (newNode : Nat) (st : ElemState) : Option Nat :=
  if st.hasTemplate then some newNode else none

/-- `remove(index)`: `let node = this.get(index);
node.parentNode.removeChild(node); this.resolveNodes()`.  `none` models
the TypeError thrown when the node is absent (`undefined.parentNode`) or
parentless (`null.removeChild`); `q2` is the post-removal query result. -/
def remove (d : Dom) (q q2 : List Nat) (st : ElemState) (index : Nat) : Option ElemState :=
  match get q st index with
  | none => none
  | some node =>
    match d.parent node with
    | none => none
    | some _ => some (resolveNodes q2 (getAll q st).2.1)

end Element

/-- `Component.element(name)`: `this.elements.get(name)`, absent for an
unknown name. -/
def element (els : List Binding) (nm : String) : Option Binding :=
  els.find? (fun e => e.name == nm)

/-- C7: `getAll` re-runs `resolveNodes` (returning the fresh query result
`q`) if and only if the cache is empty or the binding has a template;
otherwise cache and state come back unchanged.  Consequently `removeAll()`
immediately followed by `getAll()` on a dynamic binding yields exactly the
current-tree query, never the stale pre-removal cache. -/
theorem C7_getAll_cache_policy (q q2 : List Nat) (st : ElemState) :
    ((Element.getAll q st).2.2 = (st.nodes.isEmpty || st.hasTemplate))
    ∧ ((st.nodes.isEmpty || st.hasTemplate) = true →
        (Element.getAll q st).1 = q ∧ (Element.getAll q st).2.1.nodes = q)
    ∧ ((st.nodes.isEmpty || st.hasTemplate) = false →
        (Element.getAll q st).1 = st.nodes ∧ (Element.getAll q st).2.1 = st)
    ∧ (st.hasTemplate = true →
        (Element.getAll q2 (Element.removeAll st)).1 = q2) := by
  refine ⟨?_, ?_, ?_, ?_⟩
  · unfold Element.getAll
    by_cases hc : (st.nodes.isEmpty || st.hasTemplate) = true
    · simp [hc, Element.resolveNodes]
    · simp only [Bool.not_eq_true] at hc
      simp [hc]
  · intro hc
    simp [Element.getAll, hc, Element.resolveNodes]
  · intro hc
    simp [Element.getAll, hc]
  · intro ht
    simp [Element.getAll, Element.removeAll, Element.resolveNodes, ht]

/-- Witness for `C7_getAll_cache_policy`: a dynamic binding re-resolves, a
static one with a non-empty cache does not, and `removeAll` + `getAll`
yields the fresh query. -/
theorem C7_getAll_cache_policy_witness :
    (Element.getAll [9] ⟨[5], true⟩).1 = [9]
    ∧ (Element.getAll [9] ⟨[5], false⟩).1 = [5]
    ∧ (Element.getAll [7] (Element.removeAll ⟨[5], true⟩)).1 = [7] := by
  have h1 := C7_getAll_cache_policy [9] [7] ⟨[5], true⟩
  have h2 := C7_getAll_cache_policy [9] [7] ⟨[5], false⟩
  exact ⟨(h1.2.1 (by decide)).1, (h2.2.2.1 (by decide)).1, h1.2.2.2 (by decide)⟩

/-- C9: missing lookups degrade to absent values rather than failures:
`element(name)` for a name with no binding, `get(index)` at or beyond the
node list's length, and `render` on a template-less binding all yield
`none`, and all three operations are total. -/
theorem C9_absent_lookups
    (els : List Binding) (nm : String) (hnm : ∀ e ∈ els, e.name ≠ nm)
    (q : List Nat) (st : ElemState) (index : Nat)
    (hindex : (Element.getAll q st).1.length ≤ index)
    (newNode : Nat) (htpl : st.hasTemplate = false) :
    element els nm = none
    ∧ Element.get q st index = none
    ∧ Element.render newNode st = none := by
  refine ⟨?_, ?_, ?_⟩
  · rw [element, List.find?_eq_none]
    intro e he
    simpa using hnm e he
  · unfold Element.get
    exact List.getElem?_eq_none hindex
  · simp [Element.render, htpl]

/-- Witness for `C9_absent_lookups`: unknown name `"header"`, index 1 on a
one-node cache, and a template-less binding. -/
theorem C9_absent_lookups_witness :
    element elsEx "header" = none
    ∧ Element.get [9] ⟨[5], false⟩ 1 = none
    ∧ Element.render 3 ⟨[5], false⟩ = none := by
  have h := C9_absent_lookups elsEx "header" (by decide) [9] ⟨[5], false⟩ 1 (by decide) 3 (by decide)
  exact ⟨h.1, h.2.1, h.2.2⟩

/-- C10: unlike `get`, `remove(index)` is not total in its index: for any
index at or beyond the length of `getAll()` it dereferences
`undefined.parentNode` and throws (modelled by `none`) instead of
degrading to an absent value, and its error branches are unreachable
exactly under the precondition that a node exists at `index` and is
attached to a parent, in which case removal succeeds and re-resolves the
cache. -/
theorem C10_remove_partial
    (d : Dom) (q q2 : List Nat) (st : ElemState) (index : Nat) :
    ((Element.getAll q st).1.length ≤ index → Element.remove d q q2 st index = none)
    ∧ (∀ node p, (Element.getAll q st).1[index]? = some node → d.parent node = some p →
        Element.remove d q q2 st index
          = some (Element.resolveNodes q2 (Element.getAll q st).2.1)) := by
  constructor
  · intro h
    unfold Element.remove Element.get
    rw [List.getElem?_eq_none h]
  · intro node p hn hp
    unfold Element.remove Element.get
    simp only [hn, hp]

/-- Witness for `C10_remove_partial`: on a cache `[1]` under `domEx`,
index 5 throws while index 0 (node 1, parent 0) succeeds. -/
theorem C10_remove_partial_witness :
    ((Element.getAll [9] ⟨[1], false⟩).1.length ≤ 5)
    ∧ Element.remove domEx [9] [] ⟨[1], false⟩ 5 = none
    ∧ (Element.getAll [9] ⟨[1], false⟩).1[0]? = some 1
    ∧ domEx.parent 1 = some 0
    ∧ Element.remove domEx [9] [] ⟨[1], false⟩ 0
        = some (Element.resolveNodes [] (Element.getAll [9] ⟨[1], false⟩).2.1) := by
  have h5 := C10_remove_partial domEx [9] [] ⟨[1], false⟩ 5
  have h0 := C10_remove_partial domEx [9] [] ⟨[1], false⟩ 0
  exact ⟨by decide, h5.1 (by decide), by decide, by decide, h0.2 1 0 (by decide) (by decide)⟩
